import Mathlib

/-!
Verification of the threaded gzip pipeline (igzip_threaded.py).

Shallow embedding: byte strings are lists of naturals, the external codec
(isal_zlib / igzip) is an abstract collaborator with a stated contract, the
concurrent worker pool is a small-step transition system over explicit queue
states, and an arbitrary schedule of worker/sequencer steps models thread
interleaving.
-/

namespace IsalThreaded

/-- Byte strings, as lists of byte values. -/
abbrev Bytes := List Nat

/-- DEFLATE_WINDOW_SIZE = 2 ** 15 from igzip_threaded.py. -/
def DEFLATE_WINDOW_SIZE : Nat := 2 ^ 15

/-- Models the Python slice b[-n:]: the trailing min(n, len b) bytes of b. -/
def lastN (n : Nat) (b : Bytes) : Bytes := b.drop (b.length - n)

/-- Little-endian encoding of n into k bytes, as produced by struct.pack. -/
def leBytes : Nat → Nat → Bytes
  | 0, _ => []
  | k + 1, n => n % 256 :: leBytes k (n / 256)

/-- Replaces the element at position i by f applied to it; out-of-range is a
no-op.  Models in-place mutation of one queue in a list of queues. -/
def updateAt : List α → Nat → (α → α) → List α
  | [], _, _ => []
  | x :: xs, 0, f => f x :: xs
  | x :: xs, n + 1, f => x :: updateAt xs n f

/-- Abstract external Block Codec collaborator (isal_zlib / igzip).
compress lvl zdict data models
compressobj(lvl, wbits=-15, zdict=zdict).compress(data) + flush(Z_SYNC_FLUSH);
compressEmptyRaw models isal_zlib.compress(b"", wbits=-15);
decompressBlock w u models streaming decompression of one compressed unit u
when the decompressor window holds w. -/
structure Codec where
  compress : Nat → Bytes → Bytes → Bytes
  crc32 : Bytes → Nat
  crc32_combine : Nat → Nat → Nat → Nat
  compressEmptyRaw : Bytes
  decompressBlock : Bytes → Bytes → Bytes

/-- Modelled from the spec: the external collaborator contract of section 6 —
checksum of the empty string is zero, checksums are 32-bit,
combine(checksum_a, checksum_b, length_b) equals the checksum of the
concatenation, a sync-flushed block decompresses back to its payload whenever
the decompressor window has the compression dictionary as a suffix, and the
empty end-marker block decompresses to nothing. -/
structure LawfulCodec (c : Codec) : Prop where
  crc32_empty : c.crc32 [] = 0
  crc32_lt : ∀ b, c.crc32 b < 2 ^ 32
  combine_spec : ∀ a b : Bytes,
    c.crc32_combine (c.crc32 a) (c.crc32 b) b.length = c.crc32 (a ++ b)
  decompress_spec : ∀ (lvl : Nat) (z w d : Bytes),
    z <:+ w → c.decompressBlock w (c.compress lvl z d) = d
  decompress_empty_raw : ∀ w : Bytes, c.decompressBlock w c.compressEmptyRaw = []

/-- A concrete executable codec satisfying the contract, used to evaluate the
theorems on concrete pipelines. -/
def toyCodec : Codec where
  compress := fun _lvl z d => z.length :: d.length :: d
  crc32 := fun b => b.sum % 2 ^ 32
  crc32_combine := fun a b _l => (a + b) % 2 ^ 32
  compressEmptyRaw := [9, 9]
  decompressBlock := fun _w u => u.drop 2

/-- State of a ThreadedGzipWriter: the retained previous block, the per-worker
input queues (front of list is the front of the queue), the write-call index,
the worker count, and the closed flag. -/
structure WriterState where
  previous_block : Bytes
  input_queues : List (List (Bytes × Bytes))
  index : Nat
  threads : Nat
  closed : Bool
deriving DecidableEq

/-- Fresh writer as built by ThreadedGzipWriter.__init__ (after the header has
been written to the sink): empty previous block, one empty input queue per
worker, index 0, not closed. -/
def initWriter (threads : Nat) : WriterState :=
  { previous_block := []
    input_queues := List.replicate threads []
    index := 0
    threads := threads
    closed := false }

/-- Successful branch of ThreadedGzipWriter.write: the dictionary is the
trailing window of the previous block, the pair (data, zdict) is enqueued on
input queue index % threads, previous_block becomes the new data and the call
index advances. -/
def write1 (s : WriterState) (b : Bytes) : WriterState :=
  { s with
    previous_block := b
    index := s.index + 1
    input_queues := updateAt s.input_queues (s.index % s.threads)
      (fun q => q ++ [(b, lastN DEFLATE_WINDOW_SIZE s.previous_block)]) }

/-- ThreadedGzipWriter.write: raises IOError on a closed writer, otherwise
enqueues the block and returns len(data). -/
def ThreadedGzipWriter.write (s : WriterState) (b : Bytes) :
    Except String (Nat × WriterState) :=
  if s.closed then .error "Can not write closed file"
  else .ok (b.length, write1 s b)

/-- ThreadedGzipWriter.flush: raises IOError on a closed writer; the queue
drain-waits are modelled by the pipeline run (see PipeState below), so a
successful flush leaves the writer state unchanged. -/
def ThreadedGzipWriter.flush (s : WriterState) : Except String WriterState :=
  if s.closed then .error "Can not write closed file" else .ok s

/-- ThreadedGzipWriter.close: flush (raising on an already closed writer),
stop the workers, then write the empty end-marker block followed by the
8-byte trailer (little-endian crc, little-endian size masked to 32 bits) to
the sink and mark the writer closed.  crcv and sizev are the running values
published by the output sequencer when it stopped; the returned bytes are
what close appends to the sink. -/
def ThreadedGzipWriter.close (c : Codec) (s : WriterState) (crcv sizev : Nat) :
    Except String (WriterState × Bytes) :=
  match ThreadedGzipWriter.flush s with
  | .error e => .error e
  | .ok s1 =>
      .ok ({ s1 with closed := true },
        c.compressEmptyRaw ++ leBytes 4 crcv ++ leBytes 4 (sizev % 2 ^ 32))

/-- A sequence of write calls through the fallible interface. -/
def writeAll : WriterState → List Bytes → Except String WriterState
  | s, [] => .ok s
  | s, b :: bs =>
    match ThreadedGzipWriter.write s b with
    | .error e => .error e
    | .ok (_, s1) => writeAll s1 bs

/-- Total fold of the successful write branch. -/
def foldWrites (s : WriterState) (ps : List Bytes) : WriterState :=
  ps.foldl write1 s

/-- Writer state after writing the payload list ps on a fresh writer with N
workers. -/
def stateAfter (N : Nat) (ps : List Bytes) : WriterState :=
  foldWrites (initWriter N) ps

/-- The payload of the i-th write call (0-based) in a call sequence ps. -/
def payAt (ps : List Bytes) (i : Nat) : Bytes := ps.getD i []

/-- The dictionary handed to the i-th write call: empty for the first call
(previous_block starts empty), else the trailing window of the previous
payload. -/
def zdictAt (ps : List Bytes) : Nat → Bytes
  | 0 => []
  | i + 1 => lastN DEFLATE_WINDOW_SIZE (payAt ps i)

/-- The queue item produced by the i-th write call. -/
def itemAt (ps : List Bytes) (i : Nat) : Bytes × Bytes :=
  (payAt ps i, zdictAt ps i)

/-- The items dispatched round-robin to worker k: item i for every i with
i % N = k, in call order. -/
def assignedItems (N : Nat) (ps : List Bytes) (k : Nat) : List (Bytes × Bytes) :=
  ((List.range ps.length).filter (fun i => i % N == k)).map (itemAt ps)

/-- A compressed unit as produced by a compression worker:
(compressed bytes, crc of the raw payload, raw length). -/
abbrev CUnit := Bytes × Nat × Nat

/-- One _compress loop body applied to an input item (data, zdict):
compress seeded by the dictionary and terminated by a sync flush, crc32 of
the raw data, and the raw length. -/
def compressItem (c : Codec) (lvl : Nat) (it : Bytes × Bytes) : CUnit :=
  (c.compress lvl it.2 it.1, c.crc32 it.1, it.1.length)

/-- Shared state of the concurrent pipeline once the writer has dispatched
its blocks: per-worker input and output queues, and the output sequencer's
index, sink list, running crc and running size. -/
structure PipeState where
  inq : List (List (Bytes × Bytes))
  outq : List (List CUnit)
  seqIdx : Nat
  sink : List Bytes
  crc : Nat
  size : Nat
deriving DecidableEq

/-- One scheduling action: work k lets compression worker k process one
queued item; out lets the output sequencer consume one unit. -/
inductive Action where
  | work (k : Nat)
  | out
deriving DecidableEq

/-- One small step of the pipeline.  work k is enabled when input queue k is
non-empty (the timeout branch of the _compress loop is a disabled step); it
pops the front item, compresses it and appends the unit to output queue k,
marking the input item done.  out is enabled when output queue seqIdx % N is
non-empty (the timeout branch of the _write loop); it pops that unit, folds
its crc and length into the running totals via crc32_combine, appends the
compressed bytes to the sink and advances the sequencer index. -/
def step (c : Codec) (lvl N : Nat) : Action → PipeState → Option PipeState
  | .work k, s =>
    match s.inq.getD k [] with
    | [] => none
    | it :: rest =>
        some { s with
          inq := updateAt s.inq k (fun _ => rest)
          outq := updateAt s.outq k (fun q => q ++ [compressItem c lvl it]) }
  | .out, s =>
    match s.outq.getD (s.seqIdx % N) [] with
    | [] => none
    | u :: rest =>
        some { s with
          outq := updateAt s.outq (s.seqIdx % N) (fun _ => rest)
          sink := s.sink ++ [u.1]
          crc := c.crc32_combine s.crc u.2.1 u.2.2
          size := s.size + u.2.2
          seqIdx := s.seqIdx + 1 }

/-- Run a schedule of interleaved thread steps; a disabled action is skipped
(the thread merely timed out and retried). -/
def runSched (c : Codec) (lvl N : Nat) : List Action → PipeState → PipeState
  | [], s => s
  | a :: rest, s => runSched c lvl N rest ((step c lvl N a s).getD s)

/-- All input and output queues are drained: the condition flush waits for
before close stops the threads. -/
def drained (s : PipeState) : Bool :=
  s.inq.all List.isEmpty && s.outq.all List.isEmpty

/-- Pipeline start state: the input queues left by the sequence of write
calls, empty output queues, sequencer at index 0 with crc 0 and size 0. -/
def initPipe (N : Nat) (ps : List Bytes) : PipeState :=
  { inq := (stateAfter N ps).input_queues
    outq := List.replicate N []
    seqIdx := 0
    sink := []
    crc := 0
    size := 0 }

/-- Running crc the output sequencer holds after consuming the first s
blocks: crc32_combine folded over the per-block checksums in call order. -/
def crcUpTo (c : Codec) (ps : List Bytes) (s : Nat) : Nat :=
  (List.range s).foldl
    (fun a i => c.crc32_combine a (c.crc32 (payAt ps i)) (payAt ps i).length) 0

/-- Running size after consuming the first s blocks. -/
def sizeUpTo (ps : List Bytes) (s : Nat) : Nat :=
  ((List.range s).map (fun i => (payAt ps i).length)).sum

/-- Invariant of the pipeline: each worker pair of queues holds, between
them, exactly the not-yet-sequenced units of the indices assigned to that
worker, in order; the sink holds the compressed units of the first seqIdx
blocks in call order; crc and size are the corresponding running values. -/
structure PipeInv (c : Codec) (lvl N : Nat) (ps : List Bytes) (s : PipeState) :
    Prop where
  inq_len : s.inq.length = N
  outq_len : s.outq.length = N
  seq_le : s.seqIdx ≤ ps.length
  pend : ∀ k, k < N →
    s.outq.getD k [] ++ (s.inq.getD k []).map (compressItem c lvl)
      = ((List.range' s.seqIdx (ps.length - s.seqIdx)).filter
          (fun i => i % N == k)).map (fun i => compressItem c lvl (itemAt ps i))
  sink_eq : s.sink
      = (List.range s.seqIdx).map (fun i => (compressItem c lvl (itemAt ps i)).1)
  crc_eq : s.crc = crcUpTo c ps s.seqIdx
  size_eq : s.size = sizeUpTo ps s.seqIdx

/-- The compressed units of a sequence of payloads qs, with the dictionary
window threaded from payload to payload; prev is the payload written just
before the first element of qs (empty at stream start). -/
def unitsFrom (c : Codec) (lvl : Nat) : Bytes → List Bytes → List Bytes
  | _, [] => []
  | prev, p :: rest =>
      c.compress lvl (lastN DEFLATE_WINDOW_SIZE prev) p :: unitsFrom c lvl p rest

/-- Dictionary of the i-th payload of ps when the payload before ps is prev. -/
def zdictSeq (prev : Bytes) (ps : List Bytes) : Nat → Bytes
  | 0 => lastN DEFLATE_WINDOW_SIZE prev
  | i + 1 => lastN DEFLATE_WINDOW_SIZE (payAt ps i)

/-- Modelled from the spec: the streaming decompressor consuming the writer's
framed stream (the read side's igzip._IGzipReader, external to this
repository).  It processes the sync-flushed compressed units in order,
maintaining the trailing deflate window of all bytes decompressed so far, and
decompresses each unit against that window. -/
def decompressUnits (c : Codec) : Bytes → List Bytes → Bytes
  | _, [] => []
  | hist, u :: rest =>
      c.decompressBlock (lastN DEFLATE_WINDOW_SIZE hist) u
        ++ decompressUnits c
            (hist ++ c.decompressBlock (lastN DEFLATE_WINDOW_SIZE hist) u) rest

/-- Gzip header written by _write_gzip_header: magic bytes, deflate method,
no flags, zero mtime, then the os byte and the xfl byte in the order
struct.pack("BBBBIBB", ...) emits them; xfl is 4 when the level is 0. -/
def headerBytes (lvl : Nat) : Bytes :=
  [0x1f, 0x8b, 0x08, 0, 0, 0, 0, 0, 0xff, if lvl = 0 then 4 else 0]

/-- Bytes appended to the sink by a successful close, as returned by
ThreadedGzipWriter.close on the writer state; empty if close raised. -/
def closeBytes (c : Codec) (N : Nat) (ps : List Bytes) (crcv sizev : Nat) : Bytes :=
  match ThreadedGzipWriter.close c (stateAfter N ps) crcv sizev with
  | .ok r => r.2
  | .error _ => []

/-- The complete byte stream the sink has received after header, pipeline run
and close: header, the compressed units in sink order, then what close
appended (end marker and trailer). -/
def fullStream (c : Codec) (lvl N : Nat) (ps : List Bytes)
    (sched : List Action) : Bytes :=
  headerBytes lvl
    ++ (runSched c lvl N sched (initPipe N ps)).sink.flatten
    ++ closeBytes c N ps (runSched c lvl N sched (initPipe N ps)).crc
        (runSched c lvl N sched (initPipe N ps)).size

/-- State of a ThreadedGzipReader as seen by readinto: the remaining bytes of
the internal leftover buffer, the queue of decompressed chunks (front first),
whether the prefetch worker thread is still alive, the failure it recorded if
any, and the reader position. -/
structure ReaderState where
  buffer : Bytes
  q : List Bytes
  workerAlive : Bool
  exc : Option String
  pos : Nat
deriving DecidableEq

/-- Outcome of a readinto call: bytes delivered together with the successor
state, a re-raised recorded failure, or blocked (queue empty while the worker
is still alive: the code keeps polling with a short timeout, so this is a
retry point, not a terminal outcome). -/
inductive ReadResult where
  | bytes (data : Bytes) (s : ReaderState)
  | err (e : String)
  | blocked
deriving DecidableEq

/-- ThreadedGzipReader.readinto into a destination of capacity cap: serve
from the leftover buffer if it yields bytes; otherwise poll the queue: a
queued chunk replaces the buffer and is served from; with the queue empty and
the worker dead, re-raise a recorded exception if any, else signal
end-of-stream with zero bytes. -/
def readinto (cap : Nat) (s : ReaderState) : ReadResult :=
  if (s.buffer.take cap).length ≠ 0 then
    .bytes (s.buffer.take cap)
      { s with buffer := s.buffer.drop cap,
               pos := s.pos + (s.buffer.take cap).length }
  else
    match s.q with
    | d :: rest =>
        .bytes (d.take cap)
          { s with buffer := d.drop cap, q := rest,
                   pos := s.pos + (d.take cap).length }
    | [] =>
        if s.workerAlive then .blocked
        else
          match s.exc with
          | some e => .err e
          | none => .bytes [] s

theorem length_updateAt (l : List α) (i : Nat) (f : α → α) :
    (updateAt l i f).length = l.length := by
  induction l generalizing i with
  | nil => rfl
  | cons x xs ih =>
    cases i with
    | zero => rfl
    | succ n => simp [updateAt, ih]

theorem getD_updateAt_self (l : List α) (i : Nat) (f : α → α) (d : α)
    (h : i < l.length) : (updateAt l i f).getD i d = f (l.getD i d) := by
  induction l generalizing i with
  | nil => simp at h
  | cons x xs ih =>
    cases i with
    | zero => rfl
    | succ n =>
      simp only [updateAt, List.getD_cons_succ]
      exact ih n (by simpa using h)

theorem getD_updateAt_ne (l : List α) (i j : Nat) (f : α → α) (d : α)
    (h : j ≠ i) : (updateAt l i f).getD j d = l.getD j d := by
  induction l generalizing i j with
  | nil => rfl
  | cons x xs ih =>
    cases i with
    | zero =>
      cases j with
      | zero => exact absurd rfl h
      | succ m => rfl
    | succ n =>
      cases j with
      | zero => rfl
      | succ m =>
        simp only [updateAt, List.getD_cons_succ]
        exact ih n m (fun hc => h (by rw [hc]))

theorem eraseIdx_updateAt (l : List α) (i : Nat) (f : α → α) :
    (updateAt l i f).eraseIdx i = l.eraseIdx i := by
  induction l generalizing i with
  | nil => rfl
  | cons x xs ih =>
    cases i with
    | zero => rfl
    | succ n => simp [updateAt, List.eraseIdx_cons_succ, ih]

theorem toyCodec_lawful : LawfulCodec toyCodec := by
  refine ⟨rfl, ?_, ?_, ?_, ?_⟩
  · intro b; exact Nat.mod_lt _ (by norm_num)
  · intro a b; simp [toyCodec, Nat.add_mod]
  · intro lvl z w d _; rfl
  · intro w; rfl

/-- Auxiliary getD lemmas used throughout. -/
theorem getD_append_lt (xs ys : List α) (i : Nat) (d : α) (h : i < xs.length) :
    (xs ++ ys).getD i d = xs.getD i d := by
  induction xs generalizing i with
  | nil => simp at h
  | cons x xs ih =>
    cases i with
    | zero => rfl
    | succ n =>
      simp only [List.cons_append, List.getD_cons_succ]
      exact ih n (by simpa using h)

theorem getD_append_length (xs : List α) (b : α) (d : α) :
    (xs ++ [b]).getD xs.length d = b := by
  induction xs with
  | nil => rfl
  | cons x xs ih => simp [ih]

theorem getD_irrel (l : List α) (i : Nat) (d d' : α) (h : i < l.length) :
    l.getD i d = l.getD i d' := by
  induction l generalizing i with
  | nil => simp at h
  | cons x xs ih =>
    cases i with
    | zero => rfl
    | succ n =>
      simp only [List.getD_cons_succ]
      exact ih n (by simpa using h)

theorem getLastD_eq_getD (xs : List α) (d : α) (j : Nat) (h : xs.length = j + 1) :
    xs.getLastD d = xs.getD j d := by
  induction xs generalizing d j with
  | nil => simp at h
  | cons x xs ih =>
    cases xs with
    | nil =>
      have hj : j = 0 := by simpa using h
      subst hj; rfl
    | cons y rest =>
      have hj : j = rest.length + 1 := by
        simp only [List.length_cons] at h
        omega
      subst hj
      rw [List.getLastD_cons, ih x (rest.length) (by simp)]
      simp only [List.getD_cons_succ]
      exact getD_irrel _ _ _ _ (by simp)

theorem write1_closed (s : WriterState) (b : Bytes) :
    (write1 s b).closed = s.closed := rfl

theorem foldWrites_closed (s : WriterState) (ps : List Bytes) :
    (foldWrites s ps).closed = s.closed := by
  induction ps generalizing s with
  | nil => rfl
  | cons b bs ih => exact ih (write1 s b)

theorem writeAll_eq_fold (s : WriterState) (ps : List Bytes)
    (h : s.closed = false) : writeAll s ps = .ok (foldWrites s ps) := by
  induction ps generalizing s with
  | nil => rfl
  | cons b bs ih =>
    simp only [writeAll, ThreadedGzipWriter.write, h]
    exact ih (write1 s b) (by rw [write1_closed, h])

theorem foldWrites_append (s : WriterState) (xs ys : List Bytes) :
    foldWrites s (xs ++ ys) = foldWrites (foldWrites s xs) ys :=
  List.foldl_append _ _ _ _

theorem foldWrites_threads (s : WriterState) (ps : List Bytes) :
    (foldWrites s ps).threads = s.threads := by
  induction ps generalizing s with
  | nil => rfl
  | cons b bs ih => exact ih (write1 s b)

theorem foldWrites_index (s : WriterState) (ps : List Bytes) :
    (foldWrites s ps).index = s.index + ps.length := by
  induction ps generalizing s with
  | nil => rfl
  | cons b bs ih =>
    show (foldWrites (write1 s b) bs).index = s.index + (bs.length + 1)
    rw [ih (write1 s b)]
    show s.index + 1 + bs.length = s.index + (bs.length + 1)
    omega

theorem foldWrites_prev (s : WriterState) (ps : List Bytes) :
    (foldWrites s ps).previous_block = ps.getLastD s.previous_block := by
  induction ps generalizing s with
  | nil => rfl
  | cons b bs ih =>
    show (foldWrites (write1 s b) bs).previous_block = (b :: bs).getLastD _
    rw [ih (write1 s b), List.getLastD_cons]
    rfl

theorem foldWrites_queues_length (s : WriterState) (ps : List Bytes) :
    (foldWrites s ps).input_queues.length = s.input_queues.length := by
  induction ps generalizing s with
  | nil => rfl
  | cons b bs ih =>
    show (foldWrites (write1 s b) bs).input_queues.length = _
    rw [ih (write1 s b)]
    exact length_updateAt _ _ _

theorem stateAfter_threads (N : Nat) (ps : List Bytes) :
    (stateAfter N ps).threads = N := foldWrites_threads _ _

theorem stateAfter_index (N : Nat) (ps : List Bytes) :
    (stateAfter N ps).index = ps.length := by
  rw [stateAfter, foldWrites_index]
  show 0 + ps.length = ps.length
  omega

theorem stateAfter_closed (N : Nat) (ps : List Bytes) :
    (stateAfter N ps).closed = false := foldWrites_closed _ _

theorem stateAfter_prev (N : Nat) (ps : List Bytes) :
    (stateAfter N ps).previous_block = ps.getLastD [] := foldWrites_prev _ _

theorem stateAfter_queues_length (N : Nat) (ps : List Bytes) :
    (stateAfter N ps).input_queues.length = N := by
  rw [stateAfter, foldWrites_queues_length]
  simp [initWriter]

theorem lastN_nil (n : Nat) : lastN n [] = [] := by simp [lastN]

theorem payAt_append_lt (xs : List Bytes) (b : Bytes) (i : Nat)
    (h : i < xs.length) : payAt (xs ++ [b]) i = payAt xs i :=
  getD_append_lt xs [b] i [] h

theorem zdictAt_append_le (xs : List Bytes) (b : Bytes) (i : Nat)
    (h : i ≤ xs.length) : zdictAt (xs ++ [b]) i = zdictAt xs i := by
  cases i with
  | zero => rfl
  | succ j =>
    simp only [zdictAt]
    rw [payAt_append_lt xs b j (by omega)]

theorem itemAt_append_lt (xs : List Bytes) (b : Bytes) (i : Nat)
    (h : i < xs.length) : itemAt (xs ++ [b]) i = itemAt xs i := by
  simp only [itemAt]
  rw [payAt_append_lt xs b i h, zdictAt_append_le xs b i (by omega)]

theorem itemAt_append_last (xs : List Bytes) (b : Bytes) :
    itemAt (xs ++ [b]) xs.length
      = (b, lastN DEFLATE_WINDOW_SIZE (xs.getLastD [])) := by
  simp only [itemAt]
  rw [payAt, getD_append_length]
  cases hxs : xs.length with
  | zero =>
    have hnil : xs = [] := List.length_eq_zero.mp hxs
    subst hnil
    rfl
  | succ j =>
    simp only [zdictAt, payAt]
    rw [getD_append_lt xs [b] j [] (by omega)]
    rw [getLastD_eq_getD xs [] j hxs]

theorem getD_replicate_nil {α : Type} (n k : Nat) :
    (List.replicate n ([] : List α)).getD k [] = [] := by
  induction n generalizing k with
  | zero => cases k <;> rfl
  | succ m ih =>
    cases k with
    | zero => rfl
    | succ j => exact ih j

theorem stateAfter_snoc (N : Nat) (xs : List Bytes) (b : Bytes) :
    stateAfter N (xs ++ [b]) = write1 (stateAfter N xs) b := by
  rw [stateAfter, foldWrites_append]
  rfl

theorem assignedItems_snoc (N : Nat) (xs : List Bytes) (b : Bytes) (k : Nat) :
    assignedItems N (xs ++ [b]) k
      = assignedItems N xs k
        ++ (if xs.length % N = k then [itemAt (xs ++ [b]) xs.length] else []) := by
  simp only [assignedItems, List.length_append, List.length_singleton,
    List.range_succ, List.filter_append, List.map_append]
  congr 1
  · apply List.map_congr_left
    intro i hi
    have hmem : i ∈ List.range xs.length := (List.mem_filter.mp hi).1
    exact itemAt_append_lt xs b i (List.mem_range.mp hmem)
  · by_cases h : xs.length % N = k
    · simp [List.filter_cons, h]
    · simp [List.filter_cons, h]

theorem stateAfter_queues (N : Nat) (ps : List Bytes) (k : Nat)
    (hk : k < N) :
    (stateAfter N ps).input_queues.getD k [] = assignedItems N ps k := by
  induction ps using List.reverseRecOn with
  | nil =>
    show (List.replicate N []).getD k [] = _
    rw [getD_replicate_nil]
    rfl
  | append_singleton xs b ih =>
    rw [stateAfter_snoc, assignedItems_snoc]
    show (updateAt (stateAfter N xs).input_queues
      ((stateAfter N xs).index % (stateAfter N xs).threads) _).getD k [] = _
    rw [stateAfter_index, stateAfter_threads, stateAfter_prev]
    by_cases h : xs.length % N = k
    · rw [h, getD_updateAt_self _ _ _ _
        (by rw [stateAfter_queues_length]; omega)]
      rw [ih, itemAt_append_last]
      simp [h]
    · rw [getD_updateAt_ne _ _ _ _ _ (fun hc => h hc.symm)]
      rw [ih]
      simp [h]

theorem getD_mem {α : Type} (l : List α) (k : Nat) (d : α) (h : k < l.length) :
    l.getD k d ∈ l := by
  induction l generalizing k with
  | nil => simp at h
  | cons x xs ih =>
    cases k with
    | zero => exact List.mem_cons_self x xs
    | succ n =>
      simp only [List.getD_cons_succ]
      exact List.mem_cons_of_mem x (ih n (by simpa using h))

theorem initPipe_inv (c : Codec) (lvl N : Nat) (ps : List Bytes) :
    PipeInv c lvl N ps (initPipe N ps) := by
  refine ⟨stateAfter_queues_length N ps, List.length_replicate N [], Nat.zero_le _,
    ?_, rfl, rfl, rfl⟩
  intro k hk
  simp only [initPipe]
  rw [getD_replicate_nil, stateAfter_queues N ps k hk]
  rw [assignedItems, List.map_map]
  rw [← List.range_eq_range', Nat.sub_zero]
  rfl

theorem step_inv (c : Codec) (lvl N : Nat) (ps : List Bytes) (a : Action)
    (s s' : PipeState) (hN : 0 < N) (hinv : PipeInv c lvl N ps s)
    (hstep : step c lvl N a s = some s') : PipeInv c lvl N ps s' := by
  cases a with
  | work k =>
    cases hq : s.inq.getD k [] with
    | nil =>
      simp only [step, hq] at hstep
      exact Option.noConfusion hstep
    | cons it rest =>
      simp only [step, hq, Option.some.injEq] at hstep
      subst hstep
      have hk : k < N := by
        by_contra hge
        rw [List.getD_eq_default _ _ (by rw [hinv.inq_len]; omega)] at hq
        exact List.noConfusion hq
      refine ⟨?_, ?_, hinv.seq_le, ?_, hinv.sink_eq, hinv.crc_eq, hinv.size_eq⟩
      · rw [length_updateAt]; exact hinv.inq_len
      · rw [length_updateAt]; exact hinv.outq_len
      · intro k' hk'
        by_cases hkk : k' = k
        · subst hkk
          rw [getD_updateAt_self _ _ _ _ (by rw [hinv.outq_len]; exact hk'),
            getD_updateAt_self _ _ _ _ (by rw [hinv.inq_len]; exact hk')]
          have hp := hinv.pend k' hk'
          rw [hq, List.map_cons] at hp
          rw [List.append_assoc, List.singleton_append]
          exact hp
        · rw [getD_updateAt_ne _ _ _ _ _ hkk, getD_updateAt_ne _ _ _ _ _ hkk]
          exact hinv.pend k' hk'
  | out =>
    cases hq : s.outq.getD (s.seqIdx % N) [] with
    | nil =>
      simp only [step, hq] at hstep
      exact Option.noConfusion hstep
    | cons u rest =>
      simp only [step, hq, Option.some.injEq] at hstep
      subst hstep
      have hkN : s.seqIdx % N < N := Nat.mod_lt _ hN
      have hp := hinv.pend (s.seqIdx % N) hkN
      rw [hq] at hp
      have hlt : s.seqIdx < ps.length := by
        by_contra hge
        have hEq : s.seqIdx = ps.length := le_antisymm hinv.seq_le (by omega)
        rw [hEq, Nat.sub_self] at hp
        simp at hp
      have hrange : List.range' s.seqIdx (ps.length - s.seqIdx)
          = s.seqIdx :: List.range' (s.seqIdx + 1) (ps.length - (s.seqIdx + 1)) := by
        have h1 : ps.length - s.seqIdx = (ps.length - (s.seqIdx + 1)) + 1 := by omega
        rw [h1, List.range'_succ]
      rw [hrange, List.filter_cons, if_pos (beq_self_eq_true (s.seqIdx % N)),
        List.map_cons, List.cons_append] at hp
      injection hp with hu htail
      refine ⟨hinv.inq_len, ?_, ?_, ?_, ?_, ?_, ?_⟩
      · rw [length_updateAt]; exact hinv.outq_len
      · show s.seqIdx + 1 ≤ ps.length
        omega
      · intro k' hk'
        by_cases hkk : k' = s.seqIdx % N
        · subst hkk
          rw [getD_updateAt_self _ _ _ _ (by rw [hinv.outq_len]; exact hk')]
          exact htail
        · rw [getD_updateAt_ne _ _ _ _ _ hkk]
          have hp' := hinv.pend k' hk'
          rw [hrange, List.filter_cons,
            if_neg (fun hb => hkk (beq_iff_eq.mp hb).symm)] at hp'
          exact hp'
      · show s.sink ++ [u.1] = _
        rw [hinv.sink_eq, hu, List.range_succ, List.map_append]
        rfl
      · show c.crc32_combine s.crc u.2.1 u.2.2 = _
        rw [hinv.crc_eq, hu]
        show _ = crcUpTo c ps (s.seqIdx + 1)
        rw [crcUpTo, crcUpTo, List.range_succ, List.foldl_append]
        rfl
      · show s.size + u.2.2 = _
        rw [hinv.size_eq, hu]
        show _ = sizeUpTo ps (s.seqIdx + 1)
        rw [sizeUpTo, sizeUpTo, List.range_succ, List.map_append, List.sum_append]
        rfl

theorem runSched_inv (c : Codec) (lvl N : Nat) (ps : List Bytes)
    (sched : List Action) (s : PipeState) (hN : 0 < N)
    (hinv : PipeInv c lvl N ps s) :
    PipeInv c lvl N ps (runSched c lvl N sched s) := by
  induction sched generalizing s with
  | nil => exact hinv
  | cons a rest ih =>
    rw [runSched]
    cases hstep : step c lvl N a s with
    | none => rw [Option.getD_none]; exact ih s hinv
    | some s1 =>
        rw [Option.getD_some]
        exact ih s1 (step_inv c lvl N ps a s s1 hN hinv hstep)

theorem drained_seqIdx (c : Codec) (lvl N : Nat) (ps : List Bytes)
    (s : PipeState) (hN : 0 < N) (hinv : PipeInv c lvl N ps s)
    (hd : drained s = true) : s.seqIdx = ps.length := by
  by_contra hne
  have hlt : s.seqIdx < ps.length := lt_of_le_of_ne hinv.seq_le hne
  have hk : s.seqIdx % N < N := Nat.mod_lt _ hN
  obtain ⟨h1, h2⟩ := Bool.and_eq_true_iff.mp hd
  have hio : s.inq.getD (s.seqIdx % N) [] = [] :=
    List.isEmpty_iff.mp (List.all_eq_true.mp h1 _
      (getD_mem s.inq _ [] (by rw [hinv.inq_len]; exact hk)))
  have hoo : s.outq.getD (s.seqIdx % N) [] = [] :=
    List.isEmpty_iff.mp (List.all_eq_true.mp h2 _
      (getD_mem s.outq _ [] (by rw [hinv.outq_len]; exact hk)))
  have hp := hinv.pend (s.seqIdx % N) hk
  rw [hio, hoo] at hp
  simp only [List.map_nil, List.nil_append] at hp
  have hfil : (List.range' s.seqIdx (ps.length - s.seqIdx)).filter
      (fun i => i % N == s.seqIdx % N) = [] :=
    List.map_eq_nil_iff.mp hp.symm
  have hmem : s.seqIdx ∈ (List.range' s.seqIdx (ps.length - s.seqIdx)).filter
      (fun i => i % N == s.seqIdx % N) := by
    rw [List.mem_filter]
    exact ⟨List.mem_range'_1.mpr (by omega), beq_self_eq_true _⟩
  rw [hfil] at hmem
  exact List.not_mem_nil _ hmem

theorem map_range_getD (l : List Bytes) :
    (List.range l.length).map (fun i => l.getD i []) = l := by
  induction l with
  | nil => rfl
  | cons x xs ih =>
    rw [List.length_cons, List.range_succ_eq_map, List.map_cons, List.map_map]
    have h : List.map ((fun i => (x :: xs).getD i []) ∘ Nat.succ)
          (List.range xs.length)
        = List.map (fun i => xs.getD i []) (List.range xs.length) := rfl
    rw [h, ih]
    rfl

theorem foldl_range_getD {α : Type} (g : α → Bytes → α) (a : α) (ps : List Bytes) :
    (List.range ps.length).foldl (fun x i => g x (ps.getD i [])) a = ps.foldl g a := by
  conv_rhs => rw [← map_range_getD ps]
  rw [List.foldl_map]

theorem sizeUpTo_full (ps : List Bytes) :
    sizeUpTo ps ps.length = ps.flatten.length := by
  have h1 : (List.range ps.length).map (fun i => (payAt ps i).length)
      = ((List.range ps.length).map (fun i => ps.getD i [])).map List.length := by
    rw [List.map_map]
    rfl
  rw [sizeUpTo, h1, map_range_getD, List.length_flatten]

theorem foldl_combine (c : Codec) (hlaw : LawfulCodec c) (qs : List Bytes) :
    ∀ A : Bytes,
      qs.foldl (fun a b => c.crc32_combine a (c.crc32 b) b.length) (c.crc32 A)
        = c.crc32 (A ++ qs.flatten) := by
  induction qs with
  | nil => intro A; simp
  | cons q rest ih =>
    intro A
    rw [List.foldl_cons, hlaw.combine_spec, ih (A ++ q)]
    simp [List.append_assoc]

theorem crcUpTo_full (c : Codec) (hlaw : LawfulCodec c) (ps : List Bytes) :
    crcUpTo c ps ps.length = c.crc32 ps.flatten := by
  rw [crcUpTo]
  simp only [payAt]
  rw [foldl_range_getD (fun a b => c.crc32_combine a (c.crc32 b) b.length) 0 ps]
  have h := foldl_combine c hlaw ps []
  rw [hlaw.crc32_empty] at h
  simpa using h

theorem unitsFrom_eq_map (c : Codec) (lvl : Nat) (ps : List Bytes) :
    ∀ prev : Bytes,
      unitsFrom c lvl prev ps
        = (List.range ps.length).map
            (fun i => c.compress lvl (zdictSeq prev ps i) (payAt ps i)) := by
  induction ps with
  | nil => intro prev; rfl
  | cons p rest ih =>
    intro prev
    rw [unitsFrom, List.length_cons, List.range_succ_eq_map, List.map_cons,
      List.map_map, ih p]
    have h : List.map ((fun i => c.compress lvl (zdictSeq prev (p :: rest) i)
          (payAt (p :: rest) i)) ∘ Nat.succ) (List.range rest.length)
        = List.map (fun i => c.compress lvl (zdictSeq p rest i) (payAt rest i))
            (List.range rest.length) := by
      apply List.map_congr_left
      intro i _
      cases i with
      | zero => rfl
      | succ j => rfl
    rw [h]
    rfl

theorem sink_units_eq (c : Codec) (lvl : Nat) (ps : List Bytes) :
    (List.range ps.length).map (fun i => (compressItem c lvl (itemAt ps i)).1)
      = unitsFrom c lvl [] ps := by
  rw [unitsFrom_eq_map]
  apply List.map_congr_left
  intro i _
  cases i with
  | zero =>
    simp only [compressItem, itemAt, zdictAt, zdictSeq, lastN_nil]
  | succ j =>
    simp only [compressItem, itemAt, zdictAt, zdictSeq]

theorem lastN_suffix_append (n : Nat) (a b : Bytes) :
    lastN n b <:+ lastN n (a ++ b) := by
  by_cases h : n ≤ b.length
  · have heq : lastN n (a ++ b) = lastN n b := by
      rw [lastN, lastN, List.length_append]
      have h2 : a.length + b.length - n = a.length + (b.length - n) := by omega
      rw [h2, List.drop_append]
    rw [heq]
  · have hb : lastN n b = b := by
      rw [lastN]
      have h0 : b.length - n = 0 := by omega
      rw [h0, List.drop_zero]
    rw [hb, lastN]
    have hm : (a ++ b).length - n ≤ a.length := by
      rw [List.length_append]; omega
    rw [List.drop_append_of_le_length hm]
    exact List.suffix_append _ _

theorem decompressUnits_correct (c : Codec) (hlaw : LawfulCodec c) (lvl : Nat)
    (qs : List Bytes) :
    ∀ prev hist : Bytes,
      lastN DEFLATE_WINDOW_SIZE prev <:+ lastN DEFLATE_WINDOW_SIZE hist →
      decompressUnits c hist (unitsFrom c lvl prev qs ++ [c.compressEmptyRaw])
        = qs.flatten := by
  induction qs with
  | nil =>
    intro prev hist _
    simp [unitsFrom, decompressUnits, hlaw.decompress_empty_raw]
  | cons q rest ih =>
    intro prev hist hsuf
    rw [unitsFrom, List.cons_append, decompressUnits,
      hlaw.decompress_spec lvl _ _ q hsuf,
      ih q (hist ++ q) (lastN_suffix_append _ hist q)]
    rfl

theorem run_complete (c : Codec) (lvl N : Nat) (ps : List Bytes)
    (sched : List Action) (hN : 0 < N)
    (hd : drained (runSched c lvl N sched (initPipe N ps)) = true) :
    (runSched c lvl N sched (initPipe N ps)).sink
        = (List.range ps.length).map
            (fun i => (compressItem c lvl (itemAt ps i)).1)
      ∧ (runSched c lvl N sched (initPipe N ps)).crc = crcUpTo c ps ps.length
      ∧ (runSched c lvl N sched (initPipe N ps)).size = sizeUpTo ps ps.length
      ∧ (runSched c lvl N sched (initPipe N ps)).seqIdx = ps.length := by
  have hinv := runSched_inv c lvl N ps sched _ hN (initPipe_inv c lvl N ps)
  have hL := drained_seqIdx c lvl N ps _ hN hinv hd
  exact ⟨by rw [hinv.sink_eq, hL], by rw [hinv.crc_eq, hL],
    by rw [hinv.size_eq, hL], hL⟩

theorem getD_take_succ (ps : List Bytes) (j : Nat) (hj : j < ps.length) :
    (ps.take (j + 1)).getD j [] = ps.getD j [] := by
  induction ps generalizing j with
  | nil => simp at hj
  | cons p rest ih =>
    cases j with
    | zero => rfl
    | succ m =>
      simp only [List.take_cons, List.getD_cons_succ]
      exact ih m (by simpa using hj)

theorem take_getLastD (ps : List Bytes) (j : Nat) (hj : j < ps.length) :
    (ps.take (j + 1)).getLastD [] = ps.getD j [] := by
  rw [getLastD_eq_getD (ps.take (j + 1)) [] j
    (by rw [List.length_take]; omega)]
  exact getD_take_succ ps j hj

theorem lastN_length (n : Nat) (b : Bytes) :
    (lastN n b).length = min n b.length := by
  rw [lastN, List.length_drop]
  omega

theorem lastN_suffix (n : Nat) (b : Bytes) : lastN n b <:+ b :=
  List.drop_suffix _ _

theorem close_ok (c : Codec) (s : WriterState) (h : s.closed = false)
    (crcv sizev : Nat) :
    ThreadedGzipWriter.close c s crcv sizev
      = .ok ({ s with closed := true },
          c.compressEmptyRaw ++ leBytes 4 crcv ++ leBytes 4 (sizev % 2 ^ 32)) := by
  simp [ThreadedGzipWriter.close, ThreadedGzipWriter.flush, h]

theorem closeBytes_eval (c : Codec) (N : Nat) (ps : List Bytes)
    (crcv sizev : Nat) :
    closeBytes c N ps crcv sizev
      = c.compressEmptyRaw ++ leBytes 4 crcv ++ leBytes 4 (sizev % 2 ^ 32) := by
  rw [closeBytes, close_ok c _ (stateAfter_closed N ps)]

theorem stateAfter_take_zdict (N : Nat) (ps : List Bytes) (i : Nat)
    (hi : i < ps.length) :
    lastN DEFLATE_WINDOW_SIZE (stateAfter N (ps.take i)).previous_block
      = zdictAt ps i := by
  rw [stateAfter_prev]
  cases i with
  | zero => simp [zdictAt, lastN_nil]
  | succ j =>
    rw [take_getLastD ps j (by omega)]
    rfl

/-- C1: for a write-path pipeline with N workers, any complete run of the
concurrent system (any interleaving of worker and sequencer steps that
drains all queues) leaves on the sink exactly the per-block compressed units
in original write-call order, and the output sequencer has consumed
consecutive indices 0..len-1, polling queue index mod N each time (the out
step of the transition system). -/
theorem pipeline_sink_in_call_order (c : Codec) (lvl N : Nat) (ps : List Bytes)
    (sched : List Action) (hN : 0 < N)
    (hd : drained (runSched c lvl N sched (initPipe N ps)) = true) :
    (runSched c lvl N sched (initPipe N ps)).sink
        = (List.range ps.length).map
            (fun i => (compressItem c lvl (itemAt ps i)).1)
      ∧ (runSched c lvl N sched (initPipe N ps)).seqIdx = ps.length := by
  obtain ⟨h1, _, _, h4⟩ := run_complete c lvl N ps sched hN hd
  exact ⟨h1, h4⟩

theorem pipeline_sink_in_call_order_witness :
    (runSched toyCodec 1 2
          [Action.work 1, Action.work 0, Action.work 0,
            Action.out, Action.out, Action.out]
          (initPipe 2 [[1], [2], [3]])).sink
        = [[0, 1, 1], [1, 1, 2], [1, 1, 3]]
      ∧ (runSched toyCodec 1 2
          [Action.work 1, Action.work 0, Action.work 0,
            Action.out, Action.out, Action.out]
          (initPipe 2 [[1], [2], [3]])).seqIdx = 3 := by
  have h := pipeline_sink_in_call_order toyCodec 1 2 [[1], [2], [3]]
    [Action.work 1, Action.work 0, Action.work 0,
      Action.out, Action.out, Action.out] (by decide) (by decide)
  exact ⟨by rw [h.1]; decide, h.2⟩

/-- C2: for every payload sequence ps written through the threaded writer
with any worker count N and any schedule that completes the pipeline,
streaming decompression of the framed sink output (the sync-flushed units in
sink order followed by the empty end block) reconstructs exactly the
concatenation of the payloads, independent of N and the slicing, assuming
the codec collaborator satisfies its compress/decompress contract. -/
theorem threaded_writer_round_trip (c : Codec) (lvl N : Nat) (ps : List Bytes)
    (sched : List Action) (hN : 0 < N) (hlaw : LawfulCodec c)
    (hd : drained (runSched c lvl N sched (initPipe N ps)) = true) :
    decompressUnits c []
        ((runSched c lvl N sched (initPipe N ps)).sink ++ [c.compressEmptyRaw])
      = ps.flatten := by
  obtain ⟨h1, _, _, _⟩ := run_complete c lvl N ps sched hN hd
  rw [h1, sink_units_eq]
  exact decompressUnits_correct c hlaw lvl ps [] [] (by rw [lastN_nil])

theorem threaded_writer_round_trip_witness :
    decompressUnits toyCodec []
        ((runSched toyCodec 1 2
            [Action.work 1, Action.work 0, Action.work 0,
              Action.out, Action.out, Action.out]
            (initPipe 2 [[1], [2], [3]])).sink
          ++ [toyCodec.compressEmptyRaw])
      = [1, 2, 3] :=
  threaded_writer_round_trip toyCodec 1 2 [[1], [2], [3]]
    [Action.work 1, Action.work 0, Action.work 0,
      Action.out, Action.out, Action.out] (by decide) toyCodec_lawful (by decide)

/-- C3: in any complete run, folding the per-block checksums into the
running checksum in original order via the length-parameterized
crc32_combine (as the output sequencer does) equals the checksum of the
concatenated raw stream, and that value is the 4-byte little-endian checksum
field of the trailer that close writes, assuming the codec's checksum and
combine functions satisfy their contract. -/
theorem trailer_checksum_combines_in_order (c : Codec) (lvl N : Nat)
    (ps : List Bytes) (sched : List Action) (hN : 0 < N) (hlaw : LawfulCodec c)
    (hd : drained (runSched c lvl N sched (initPipe N ps)) = true) :
    (runSched c lvl N sched (initPipe N ps)).crc = c.crc32 ps.flatten
      ∧ ps.foldl (fun a b => c.crc32_combine a (c.crc32 b) b.length) 0
          = c.crc32 ps.flatten
      ∧ closeBytes c N ps (runSched c lvl N sched (initPipe N ps)).crc
            (runSched c lvl N sched (initPipe N ps)).size
          = c.compressEmptyRaw ++ leBytes 4 (c.crc32 ps.flatten)
            ++ leBytes 4 (ps.flatten.length % 2 ^ 32) := by
  obtain ⟨_, h2, h3, _⟩ := run_complete c lvl N ps sched hN hd
  have hcrc : (runSched c lvl N sched (initPipe N ps)).crc = c.crc32 ps.flatten := by
    rw [h2, crcUpTo_full c hlaw]
  have hsize : (runSched c lvl N sched (initPipe N ps)).size = ps.flatten.length := by
    rw [h3, sizeUpTo_full]
  refine ⟨hcrc, ?_, ?_⟩
  · have h := foldl_combine c hlaw ps []
    rw [hlaw.crc32_empty] at h
    simpa using h
  · rw [closeBytes_eval, hcrc, hsize]

theorem trailer_checksum_combines_in_order_witness :
    (runSched toyCodec 1 2
          [Action.work 1, Action.work 0, Action.work 0,
            Action.out, Action.out, Action.out]
          (initPipe 2 [[1], [2], [3]])).crc = 6
      ∧ [[1], [2], [3]].foldl
          (fun a b => toyCodec.crc32_combine a (toyCodec.crc32 b) b.length) 0 = 6
      ∧ closeBytes toyCodec 2 [[1], [2], [3]]
            (runSched toyCodec 1 2
              [Action.work 1, Action.work 0, Action.work 0,
                Action.out, Action.out, Action.out]
              (initPipe 2 [[1], [2], [3]])).crc
            (runSched toyCodec 1 2
              [Action.work 1, Action.work 0, Action.work 0,
                Action.out, Action.out, Action.out]
              (initPipe 2 [[1], [2], [3]])).size
          = [9, 9, 6, 0, 0, 0, 3, 0, 0, 0] := by
  have h := trailer_checksum_combines_in_order toyCodec 1 2 [[1], [2], [3]]
    [Action.work 1, Action.work 0, Action.work 0,
      Action.out, Action.out, Action.out] (by decide) toyCodec_lawful (by decide)
  refine ⟨by rw [h.1]; decide, by rw [h.2.1]; decide, by rw [h.2.2]; decide⟩

/-- C4: on a non-closed writer, the i-th write call (0-based) enqueues the
pair (payload_i, dictionary_i) onto input queue i mod N without touching the
other queues, where dictionary_i is the trailing min(32768, len payload_(i-1))
bytes of the immediately preceding payload (empty for i = 0); it advances the
call index from i to i+1 and returns len(payload_i) immediately. -/
theorem write_round_robin_dispatch (N : Nat) (ps : List Bytes) (i : Nat)
    (hN : 0 < N) (hi : i < ps.length) :
    writeAll (initWriter N) (ps.take i) = .ok (stateAfter N (ps.take i))
      ∧ (stateAfter N (ps.take i)).index = i
      ∧ ThreadedGzipWriter.write (stateAfter N (ps.take i)) (payAt ps i)
          = .ok ((payAt ps i).length,
              write1 (stateAfter N (ps.take i)) (payAt ps i))
      ∧ (write1 (stateAfter N (ps.take i)) (payAt ps i)).index = i + 1
      ∧ (write1 (stateAfter N (ps.take i)) (payAt ps i)).input_queues.getD
            (i % N) []
          = (stateAfter N (ps.take i)).input_queues.getD (i % N) []
            ++ [(payAt ps i, zdictAt ps i)]
      ∧ (write1 (stateAfter N (ps.take i)) (payAt ps i)).input_queues.eraseIdx
            (i % N)
          = (stateAfter N (ps.take i)).input_queues.eraseIdx (i % N)
      ∧ zdictAt ps i <:+ (if i = 0 then [] else payAt ps (i - 1))
      ∧ (zdictAt ps i).length
          = min DEFLATE_WINDOW_SIZE
              (if i = 0 then [] else payAt ps (i - 1)).length := by
  have hidx : (stateAfter N (ps.take i)).index = i := by
    rw [stateAfter_index, List.length_take]
    omega
  have hth : (stateAfter N (ps.take i)).threads = N := stateAfter_threads _ _
  have hcl : (stateAfter N (ps.take i)).closed = false := stateAfter_closed _ _
  have hzd := stateAfter_take_zdict N ps i hi
  refine ⟨writeAll_eq_fold _ _ rfl, hidx, ?_, ?_, ?_, ?_, ?_, ?_⟩
  · simp [ThreadedGzipWriter.write, hcl]
  · show (stateAfter N (ps.take i)).index + 1 = i + 1
    rw [hidx]
  · show (updateAt (stateAfter N (ps.take i)).input_queues
        ((stateAfter N (ps.take i)).index % (stateAfter N (ps.take i)).threads)
        _).getD (i % N) [] = _
    rw [hidx, hth,
      getD_updateAt_self _ _ _ _
        (by rw [stateAfter_queues_length]; exact Nat.mod_lt _ hN),
      hzd]
  · show (updateAt (stateAfter N (ps.take i)).input_queues
        ((stateAfter N (ps.take i)).index % (stateAfter N (ps.take i)).threads)
        _).eraseIdx (i % N) = _
    rw [hidx, hth]
    exact eraseIdx_updateAt _ _ _
  · cases i with
    | zero => simp [zdictAt]
    | succ j =>
      simp only [Nat.succ_ne_zero, if_false, Nat.add_sub_cancel]
      exact lastN_suffix _ _
  · cases i with
    | zero => simp [zdictAt]
    | succ j =>
      simp only [Nat.succ_ne_zero, if_false, Nat.add_sub_cancel]
      exact lastN_length _ _

theorem write_round_robin_dispatch_witness :
    ThreadedGzipWriter.write (stateAfter 2 ([[1, 2], [3]].take 1))
        (payAt [[1, 2], [3]] 1)
      = .ok (1, write1 (stateAfter 2 ([[1, 2], [3]].take 1)) (payAt [[1, 2], [3]] 1))
    ∧ (write1 (stateAfter 2 ([[1, 2], [3]].take 1))
        (payAt [[1, 2], [3]] 1)).input_queues.getD 1 [] = [([3], [1, 2])] := by
  have h := write_round_robin_dispatch 2 [[1, 2], [3]] 1 (by decide) (by decide)
  refine ⟨h.2.2.1, ?_⟩
  have h5 := h.2.2.2.2.1
  rw [show (1 : Nat) % 2 = 1 from rfl] at h5
  rw [h5]
  decide

/-- C5: the first close on the threaded writer flushes, stops the workers,
writes the empty end-marker block followed by the 8-byte trailer of
little-endian running checksum and running size masked to 32 bits, and marks
the writer closed; the trailer size field is the total payload length modulo
2^32, and with no writes at all the sink receives only header, end marker
and an all-zero trailer. -/
theorem close_writes_end_marker_and_trailer (c : Codec) (lvl N : Nat)
    (ps : List Bytes) (sched : List Action) (hN : 0 < N) (hlaw : LawfulCodec c)
    (hd : drained (runSched c lvl N sched (initPipe N ps)) = true) :
    ThreadedGzipWriter.close c (stateAfter N ps)
        (runSched c lvl N sched (initPipe N ps)).crc
        (runSched c lvl N sched (initPipe N ps)).size
      = .ok ({ stateAfter N ps with closed := true },
          c.compressEmptyRaw ++ leBytes 4 (c.crc32 ps.flatten)
            ++ leBytes 4 (ps.flatten.length % 2 ^ 32))
    ∧ fullStream c lvl N ps sched
      = headerBytes lvl ++ (unitsFrom c lvl [] ps).flatten
        ++ c.compressEmptyRaw ++ leBytes 4 (c.crc32 ps.flatten)
        ++ leBytes 4 (ps.flatten.length % 2 ^ 32)
    ∧ (ps = [] → fullStream c lvl N ps sched
        = headerBytes lvl ++ c.compressEmptyRaw
          ++ [0, 0, 0, 0, 0, 0, 0, 0]) := by
  obtain ⟨h1, h2, h3, _⟩ := run_complete c lvl N ps sched hN hd
  have hcrc : (runSched c lvl N sched (initPipe N ps)).crc
      = c.crc32 ps.flatten := by
    rw [h2, crcUpTo_full c hlaw]
  have hsize : (runSched c lvl N sched (initPipe N ps)).size
      = ps.flatten.length := by
    rw [h3, sizeUpTo_full]
  have hfull : fullStream c lvl N ps sched
      = headerBytes lvl ++ (unitsFrom c lvl [] ps).flatten
        ++ c.compressEmptyRaw ++ leBytes 4 (c.crc32 ps.flatten)
        ++ leBytes 4 (ps.flatten.length % 2 ^ 32) := by
    rw [fullStream, h1, sink_units_eq, closeBytes_eval, hcrc, hsize]
    simp [List.append_assoc]
  refine ⟨?_, hfull, ?_⟩
  · rw [close_ok c _ (stateAfter_closed N ps), hcrc, hsize]
  · intro hps
    subst hps
    have e0 : ([] : List Bytes).flatten = ([] : Bytes) := rfl
    have e1 : (unitsFrom c lvl [] ([] : List Bytes)).flatten = [] := rfl
    have e2 : ([] : Bytes).length % 2 ^ 32 = 0 := rfl
    have e3 : leBytes 4 0 = [0, 0, 0, 0] := rfl
    rw [hfull, e0, e1, hlaw.crc32_empty, e2, e3]
    simp

theorem close_writes_end_marker_and_trailer_witness :
    ThreadedGzipWriter.close toyCodec (stateAfter 1 [])
        (runSched toyCodec 1 1 [] (initPipe 1 [])).crc
        (runSched toyCodec 1 1 [] (initPipe 1 [])).size
      = .ok ({ stateAfter 1 [] with closed := true },
          [9, 9, 0, 0, 0, 0, 0, 0, 0, 0])
    ∧ fullStream toyCodec 1 1 [] []
      = headerBytes 1 ++ [9, 9] ++ [0, 0, 0, 0, 0, 0, 0, 0] := by
  have h := close_writes_end_marker_and_trailer toyCodec 1 1 [] [] (by decide)
    toyCodec_lawful (by decide)
  exact ⟨h.1, h.2.2 rfl⟩

/-- C6: the claim that close is idempotent is contradicted by the code: the
first close succeeds and writes the end marker and trailer exactly once, but
a second close calls flush on a writer whose closed flag is set, which
raises IOError("Can not write closed file") instead of being a no-op. -/
theorem close_twice_raises :
    ThreadedGzipWriter.close toyCodec (initWriter 1) 0 0
      = .ok ({ initWriter 1 with closed := true },
          toyCodec.compressEmptyRaw ++ leBytes 4 0 ++ leBytes 4 0)
    ∧ ThreadedGzipWriter.close toyCodec { initWriter 1 with closed := true } 0 0
      = .error "Can not write closed file" := by
  constructor
  · rfl
  · rfl

/-- C7: a write call on the threaded writer raises exactly when the writer
has been closed: after close every write fails synchronously with the
IOError message, and before close write succeeds, returning the payload
length. -/
theorem write_error_iff_closed (s : WriterState) (b : Bytes) :
    (s.closed = true →
      ThreadedGzipWriter.write s b = .error "Can not write closed file")
    ∧ (s.closed = false →
      ThreadedGzipWriter.write s b = .ok (b.length, write1 s b)) := by
  constructor
  · intro h
    simp [ThreadedGzipWriter.write, h]
  · intro h
    simp [ThreadedGzipWriter.write, h]

theorem write_error_iff_closed_witness :
    ThreadedGzipWriter.write { initWriter 1 with closed := true } [7]
      = .error "Can not write closed file"
    ∧ ThreadedGzipWriter.write (initWriter 1) [7]
      = .ok (1, write1 (initWriter 1) [7]) :=
  ⟨(write_error_iff_closed { initWriter 1 with closed := true } [7]).1 rfl,
    (write_error_iff_closed (initWriter 1) [7]).2 rfl⟩

/-- C8: for every item (payload, dictionary) a compression worker pulls from
its own input queue, its step pushes to its own output queue exactly the
triple (compressed bytes of the payload seeded by the dictionary and closed
by a sync flush, checksum of the raw payload, payload length), removes the
item from the input queue (marking it done for drain-wait accounting), and
leaves every other worker's queues untouched. -/
theorem compress_worker_contract (c : Codec) (lvl N k : Nat) (s : PipeState)
    (data zdict : Bytes) (rest : List (Bytes × Bytes))
    (h : s.inq.getD k [] = (data, zdict) :: rest) :
    step c lvl N (.work k) s
      = some { s with
          inq := updateAt s.inq k (fun _ => rest)
          outq := updateAt s.outq k (fun q => q
            ++ [(c.compress lvl zdict data, c.crc32 data, data.length)]) }
    ∧ (k < s.outq.length →
        (updateAt s.outq k (fun q => q
            ++ [(c.compress lvl zdict data, c.crc32 data, data.length)])).getD k []
          = s.outq.getD k []
            ++ [(c.compress lvl zdict data, c.crc32 data, data.length)])
    ∧ (updateAt s.outq k (fun q => q
          ++ [(c.compress lvl zdict data, c.crc32 data, data.length)])).eraseIdx k
        = s.outq.eraseIdx k
    ∧ (updateAt s.inq k (fun _ => rest)).eraseIdx k = s.inq.eraseIdx k := by
  refine ⟨?_, ?_, eraseIdx_updateAt _ _ _, eraseIdx_updateAt _ _ _⟩
  · simp only [step, h]
    rfl
  · intro hk
    exact getD_updateAt_self _ _ _ _ hk

theorem compress_worker_contract_witness :
    step toyCodec 1 1 (.work 0)
        { inq := [[([5], [1])]], outq := [[]], seqIdx := 0, sink := [],
          crc := 0, size := 0 }
      = some { inq := [[]], outq := [[([1, 1, 5], 5, 1)]], seqIdx := 0,
               sink := [], crc := 0, size := 0 }
    ∧ (updateAt [([] : List CUnit)] 0
          (fun q => q ++ [(toyCodec.compress 1 [1] [5], toyCodec.crc32 [5],
            ([5] : Bytes).length)])).getD 0 []
        = [([1, 1, 5], 5, 1)] := by
  have h := compress_worker_contract toyCodec 1 1 0
    { inq := [[([5], [1])]], outq := [[]], seqIdx := 0, sink := [],
      crc := 0, size := 0 } [5] [1] [] rfl
  refine ⟨?_, ?_⟩
  · rw [h.1]
    decide
  · rw [h.2.1 (by decide)]
    decide

/-- C9: with the leftover buffer exhausted, a readinto on the threaded
reader has exactly two terminal outcomes when the prefetch worker has
terminated and the queue is empty — re-raising the recorded failure, or
zero bytes for end-of-stream; while the queue is non-empty it instead takes
the next queued chunk, which becomes the new leftover buffer; queue empty
with the worker alive is a retry (blocked), not a terminal outcome. -/
theorem readinto_terminal_outcomes (cap : Nat) (s : ReaderState)
    (hbuf : s.buffer = []) :
    (s.q = [] → s.workerAlive = false →
      readinto cap s
        = (match s.exc with
           | some e => ReadResult.err e
           | none => ReadResult.bytes [] s))
    ∧ (s.q ≠ [] → readinto cap s
        = ReadResult.bytes ((s.q.headD []).take cap)
            { s with buffer := (s.q.headD []).drop cap, q := s.q.tail,
                     pos := s.pos + ((s.q.headD []).take cap).length })
    ∧ (s.q = [] → s.workerAlive = true → readinto cap s = ReadResult.blocked) := by
  refine ⟨?_, ?_, ?_⟩
  · intro hq hw
    cases hexc : s.exc <;> simp [readinto, hbuf, hq, hw, hexc]
  · intro hq
    cases hq2 : s.q with
    | nil => exact absurd hq2 hq
    | cons d rest => simp [readinto, hbuf, hq2]
  · intro hq hw
    simp [readinto, hbuf, hq, hw]

theorem readinto_terminal_outcomes_witness :
    readinto 1
        { buffer := [], q := [[7, 8]], workerAlive := true, exc := none,
          pos := 0 }
      = ReadResult.bytes [7]
          { buffer := [8], q := [], workerAlive := true, exc := none,
            pos := 1 }
    ∧ readinto 1
        { buffer := [], q := [], workerAlive := false, exc := some "bad",
          pos := 3 }
      = ReadResult.err "bad"
    ∧ readinto 1
        { buffer := [], q := [], workerAlive := false, exc := none, pos := 3 }
      = ReadResult.bytes []
          { buffer := [], q := [], workerAlive := false, exc := none,
            pos := 3 }
    ∧ readinto 1
        { buffer := [], q := [], workerAlive := true, exc := none, pos := 3 }
      = ReadResult.blocked := by
  refine ⟨?_, ?_, ?_, ?_⟩
  · exact (readinto_terminal_outcomes 1 _ rfl).2.1 (by decide)
  · exact (readinto_terminal_outcomes 1 _ rfl).1 rfl rfl
  · exact (readinto_terminal_outcomes 1 _ rfl).1 rfl rfl
  · exact (readinto_terminal_outcomes 1 _ rfl).2.2 rfl rfl

/-- C10: a zero-length write on an open threaded writer returns 0 yet still
enqueues a block on the current round-robin queue, advances the call index,
and replaces the stored previous block by the empty payload, so the
immediately following write is compressed with an empty dictionary. -/
theorem write_empty_payload_behavior (s : WriterState) (b2 : Bytes)
    (hopen : s.closed = false) (hN : 0 < s.threads)
    (hlen : s.input_queues.length = s.threads) :
    ThreadedGzipWriter.write s [] = .ok (0, write1 s [])
    ∧ (write1 s []).input_queues.getD (s.index % s.threads) []
        = s.input_queues.getD (s.index % s.threads) []
          ++ [([], lastN DEFLATE_WINDOW_SIZE s.previous_block)]
    ∧ (write1 s []).index = s.index + 1
    ∧ (write1 s []).previous_block = []
    ∧ ThreadedGzipWriter.write (write1 s []) b2
        = .ok (b2.length, write1 (write1 s []) b2)
    ∧ (write1 (write1 s []) b2).input_queues.getD ((s.index + 1) % s.threads) []
        = (write1 s []).input_queues.getD ((s.index + 1) % s.threads) []
          ++ [(b2, [])] := by
  refine ⟨?_, ?_, rfl, rfl, ?_, ?_⟩
  · simp [ThreadedGzipWriter.write, hopen]
  · exact getD_updateAt_self _ _ _ _
      (by rw [hlen]; exact Nat.mod_lt _ hN)
  · simp [ThreadedGzipWriter.write, write1_closed, hopen]
  · show (updateAt (write1 s []).input_queues
        ((write1 s []).index % (write1 s []).threads)
        (fun q => q ++ [(b2,
          lastN DEFLATE_WINDOW_SIZE (write1 s []).previous_block)])).getD
        ((s.index + 1) % s.threads) [] = _
    have hq : (write1 s []).input_queues.length = s.threads := by
      show (updateAt s.input_queues _ _).length = s.threads
      rw [length_updateAt, hlen]
    have hidx : (write1 s []).index = s.index + 1 := rfl
    have hth : (write1 s []).threads = s.threads := rfl
    rw [hidx, hth,
      getD_updateAt_self _ _ _ _ (by rw [hq]; exact Nat.mod_lt _ hN)]
    have hpb : (write1 s []).previous_block = ([] : Bytes) := rfl
    rw [hpb, lastN_nil]

theorem write_empty_payload_behavior_witness :
    ThreadedGzipWriter.write
        { previous_block := [9], input_queues := [[]], index := 0,
              threads := 1, closed := false } []
      = .ok (0, write1
          { previous_block := [9], input_queues := [[]], index := 0,
                threads := 1, closed := false } [])
    ∧ (write1
          { previous_block := [9], input_queues := [[]], index := 0,
                threads := 1, closed := false } []).input_queues.getD 0 []
        = [([], [9])]
    ∧ (write1 (write1
          { previous_block := [9], input_queues := [[]], index := 0,
                threads := 1, closed := false } []) [4]).input_queues.getD 0 []
        = [([], [9]), ([4], [])] := by
  have h := write_empty_payload_behavior
    { previous_block := [9], input_queues := [[]], index := 0,
      threads := 1, closed := false } [4] rfl (by decide) rfl
  refine ⟨h.1, ?_, ?_⟩
  · rw [show (0 : Nat) % 1 = 0 from rfl] at h
    rw [h.2.1]
    decide
  · rw [show (0 + 1 : Nat) % 1 = 0 from rfl] at h
    rw [h.2.2.2.2.2]
    decide

end IsalThreaded
